import Mathlib

/-!
Verification development for the PaperAtlas incremental enrichment pipeline.

The definitions below are shallow embeddings of the Python source:
  - `src/utils.py` (`parse_authors`),
  - `src/app.py` (`clean_papers`, the author/paper partition inside
    `extract_papers`, `ExtractionSession.get_new_logs`, the parallel
    dispatch loops and their checkpoint saves),
  - `src/openrouter_paper_enrichment_agent.py` (`_parse_json_response`),
  - `src/openrouter_author_enrichment_agent.py` (`get_author_info` parsing),
  - `src/enrich_papers.py` (`enrich_single_paper` retry loop, category reuse).

Python strings are modelled as `List Char`; Python floats are modelled as
exact rationals `ℚ`; Python `None`/absent dict keys are modelled with
`Option`.  Fallible operations return `Option`.
-/

namespace PaperAtlas

/-! ### Basic string operations (models of Python `str` methods) -/

/-- Model of Python whitespace for `str.strip` (ASCII subset). -/
def isWS (c : Char) : Bool := c == ' ' || c == '\t' || c == '\n' || c == '\r'

/-- Model of Python `s.strip()`: remove leading and trailing whitespace. -/
def pyStrip (l : List Char) : List Char :=
  ((l.dropWhile isWS).reverse.dropWhile isWS).reverse

/-- Model of Python `s.rstrip('.')`: remove trailing period characters. -/
def rstripDots (l : List Char) : List Char :=
  (l.reverse.dropWhile (· = '.')).reverse

/-- Model of Python `s.split(',')`.  On the empty string it returns `[[]]`,
matching `''.split(',') == ['']`. -/
def splitComma : List Char → List (List Char)
  | [] => [[]]
  | c :: rest =>
    match splitComma rest with
    | [] => [[c]]
    | g :: gs => if c = ',' then [] :: g :: gs else (c :: g) :: gs

/-- Model of Python `s.lower()` on the title key (ASCII `Char.toLower`). -/
def lowerKey (l : List Char) : List Char := l.map Char.toLower

/-! ### `parse_authors` (src/utils.py lines 11-37; an identical copy lives in
src/enrich_authors.py lines 14-28) -/

/-- The three tokens skipped by `parse_authors`
(`if author in ['...', 'et al', 'et al.']`). -/
def skipTokens : List (List Char) := ["...".data, "et al".data, "et al.".data]

/-- Per-token cleaning step of `parse_authors`: the token has already been
stripped (`a.strip()` in the list comprehension); skip tokens are dropped,
then trailing dots are removed, then empty results are dropped. -/
def cleanToken (a : List Char) : Option (List Char) :=
  if a ∈ skipTokens then none
  else
    let a' := rstripDots a
    if a' = [] then none else some a'

/-- Model of `parse_authors(author_string)` on a non-`None`, non-empty string:
split on commas, strip each part, then clean each token. -/
def parseAuthorsList (l : List Char) : List (List Char) :=
  ((splitComma l).map pyStrip).filterMap cleanToken

/-- Model of `parse_authors` including the `if not author_string: return []`
guard: `none` models Python `None`, `some []` models the empty string. -/
def parse_authors (s : Option (List Char)) : List (List Char) :=
  match s with
  | none => []
  | some l => if l = [] then [] else parseAuthorsList l

/-! ### `clean_papers` (src/app.py lines 1212-1246) -/

/-- A raw paper as far as `clean_papers` reads it: a title string and the
`relevance_score` field.  `score = none` models a missing or unparseable
score, which Python's `try: float(...) except: score = 0.0` turns into `0.0`. -/
structure RawPaper where
  title : List Char
  score : Option ℚ
deriving DecidableEq, Repr

/-- `float(paper.get('relevance_score', 0))` with the `except` fallback. -/
def rawScore (p : RawPaper) : ℚ := p.score.getD 0

/-- A cleaned paper: stripped title and percentage score. -/
structure CleanPaper where
  title : List Char
  score : ℚ
deriving DecidableEq, Repr

/-- Round-half-to-even on an exact rational, modelling Python's `round`
(banker's rounding) at integer precision. -/
def roundHalfEven (x : ℚ) : ℤ :=
  let f := ⌊x⌋
  let r := x - f
  if r < 1/2 then f
  else if 1/2 < r then f + 1
  else if f % 2 = 0 then f else f + 1

/-- Model of Python `round(x, 2)`. -/
def roundTo2 (x : ℚ) : ℚ := (roundHalfEven (x * 100) : ℚ) / 100

/-- The body of the `for paper in papers:` loop of `clean_papers`, with the
`seen_titles` set threaded through.  Returns
(cleaned, dropped_dupes, dropped_low). -/
def cleanLoop (seen : List (List Char)) :
    List RawPaper → List CleanPaper × Nat × Nat
  | [] => ([], 0, 0)
  | p :: rest =>
    let title := pyStrip p.title
    if title = [] then cleanLoop seen rest
    else
      let key := lowerKey title
      if key ∈ seen then
        let r := cleanLoop seen rest
        (r.1, r.2.1 + 1, r.2.2)
      else
        let pct := roundTo2 (rawScore p * 100)
        if pct ≤ 50 then
          let r := cleanLoop seen rest
          (r.1, r.2.1, r.2.2 + 1)
        else
          let r := cleanLoop (key :: seen) rest
          (⟨title, pct⟩ :: r.1, r.2.1, r.2.2)

/-- Model of `clean_papers(papers)`. -/
def clean_papers (papers : List RawPaper) : List CleanPaper × Nat × Nat :=
  cleanLoop [] papers

/-- Deduplication by case-insensitive stripped title keeping the first
occurrence, regardless of score. -/
def dedupByKey : List RawPaper → List (List Char) → List RawPaper
  | [], _ => []
  | p :: rest, seen =>
    let key := lowerKey (pyStrip p.title)
    if key ∈ seen then dedupByKey rest seen
    else p :: dedupByKey rest (key :: seen)

/-- The cleaning pipeline as the specification sentence orders it
(modelled from the spec words, for comparison with `clean_papers`):
drop empty titles, THEN deduplicate keeping the first occurrence, THEN
scale the score, THEN drop records with scaled score ≤ 50. -/
def cleanSpecOrder (papers : List RawPaper) : List CleanPaper :=
  let nonEmpty := papers.filter (fun p => pyStrip p.title ≠ [])
  let dedup := dedupByKey nonEmpty []
  let scaled := dedup.map
    (fun p => CleanPaper.mk (pyStrip p.title) (roundTo2 (rawScore p * 100)))
  scaled.filter (fun c => ¬ c.score ≤ 50)

/-! ### Persisted author records and prior-state classification
(src/app.py lines 1609-1636, identical loading block at lines 1436-1464) -/

/-- The string `"Unknown"`. -/
def unknownStr : List Char := "Unknown".data

/-- A persisted author entry read back from the enriched-authors JSON file.
Each enrichment field is `none` when the key is absent from the JSON object,
`some none` when the key is present with value `null`, and `some (some s)`
when it holds the string `s`. -/
structure PersistedAuthor where
  name : List Char
  affiliation? : Option (Option (List Char))
  role? : Option (Option (List Char))
  photo? : Option (Option (List Char))
  profile? : Option (Option (List Char))
deriving DecidableEq, Repr

/-- `all(field in author for field in ['affiliation','role','photo_url','profile_url'])`. -/
def has_required_fields (a : PersistedAuthor) : Bool :=
  a.affiliation?.isSome && a.role?.isSome && a.photo?.isSome && a.profile?.isSome

/-- Python truthiness of `author.get(k)`: false for an absent key, for
`null`, and for the empty string. -/
def truthy (f : Option (Option (List Char))) : Bool :=
  match f with
  | some (some s) => !s.isEmpty
  | _ => false

/-- `author.get(k)` viewed as a string (only inspected when `truthy`). -/
def getStr (f : Option (Option (List Char))) : List Char := f.join.getD []

/-- The `has_info` test (src/app.py lines 1618-1623):
`author.get('affiliation') and author.get('affiliation') != 'Unknown' and
author.get('role') and author.get('role') != 'Unknown'`. -/
def has_info (a : PersistedAuthor) : Bool :=
  truthy a.affiliation? && !(getStr a.affiliation? == unknownStr) &&
  truthy a.role? && !(getStr a.role? == unknownStr)

/-- Python dict lookup on an insertion-ordered association list. -/
def dictLookup {β : Type} (d : List (List Char × β)) (k : List Char) : Option β :=
  (d.find? (fun kv => kv.1 == k)).map (·.2)

/-- Python dict assignment `d[k] = v`: overwrite in place, or append. -/
def dictInsert {β : Type} (d : List (List Char × β)) (k : List Char) (v : β) :
    List (List Char × β) :=
  if d.any (fun kv => kv.1 == k) then
    d.map (fun kv => if kv.1 == k then (k, v) else kv)
  else d ++ [(k, v)]

/-- One iteration of the `for author in existing_authors:` loading loop
(src/app.py lines 1613-1631): incomplete entries are skipped; entries with
`has_info` go to `existing_enriched`, the rest to `previously_attempted`. -/
def loadStep
    (acc : List (List Char × PersistedAuthor) × List (List Char × PersistedAuthor))
    (a : PersistedAuthor) :
    List (List Char × PersistedAuthor) × List (List Char × PersistedAuthor) :=
  if !has_required_fields a then acc
  else if has_info a then (dictInsert acc.1 a.name a, acc.2)
  else (acc.1, dictInsert acc.2 a.name a)

/-- Loading the prior enriched-authors file into the
`existing_enriched` / `previously_attempted` dicts. -/
def load_existing_authors (entries : List PersistedAuthor) :
    List (List Char × PersistedAuthor) × List (List Char × PersistedAuthor) :=
  entries.foldl loadStep ([], [])

/-- A candidate author as produced by `analyze_authors`, restricted to the
fields the partition step reads and writes. -/
structure AuthorStat where
  name : List Char
  highlyRelevantCount : Nat
  affiliation : Option (List Char)
  role : Option (List Char)
  photoUrl : Option (List Char)
  profileUrl : Option (List Char)
deriving DecidableEq, Repr

/-- `existing.get(k, 'Unknown')`: the default applies only when the key is
absent; a present `null` stays `None`. -/
def getFieldD (f : Option (Option (List Char))) (d : List Char) : Option (List Char) :=
  match f with
  | none => some d
  | some v => v

/-- Copying persisted enrichment fields onto the candidate author
(src/app.py lines 1658-1662 and 1667-1671). -/
def applyExisting (a : AuthorStat) (p : PersistedAuthor) : AuthorStat :=
  { a with
    affiliation := getFieldD p.affiliation? unknownStr
    role := getFieldD p.role? unknownStr
    photoUrl := p.photo?.join
    profileUrl := p.profile?.join }

/-- The `for author in key_authors:` partition (src/app.py lines 1656-1674)
into (already_enriched_authors, skipped_not_found_authors, authors_to_enrich). -/
def partitionAuthors (enr att : List (List Char × PersistedAuthor)) :
    List AuthorStat → List AuthorStat × List AuthorStat × List AuthorStat
  | [] => ([], [], [])
  | a :: rest =>
    let r := partitionAuthors enr att rest
    match dictLookup enr a.name with
    | some p => (applyExisting a p :: r.1, r.2.1, r.2.2)
    | none =>
      match dictLookup att a.name with
      | some p => (r.1, applyExisting a p :: r.2.1, r.2.2)
      | none => (r.1, r.2.1, a :: r.2.2)

/-! ### `ExtractionSession` incremental log delivery (src/app.py lines 1156-1175) -/

/-- One entry of `session.logs` (`{'message': ..., 'type': ...}`). -/
structure LogEntry where
  message : List Char
  type : List Char
deriving DecidableEq, Repr

/-- The session state read by `log` and `get_new_logs`. -/
structure SessionState where
  logs : List LogEntry
  logIndex : Nat
deriving DecidableEq, Repr

/-- `ExtractionSession.log`: append an entry. -/
def sessionLog (s : SessionState) (e : LogEntry) : SessionState :=
  { s with logs := s.logs ++ [e] }

/-- `ExtractionSession.get_new_logs`: return `self.logs[self.log_index:]`
and set `self.log_index = len(self.logs)`. -/
def get_new_logs (s : SessionState) : List LogEntry × SessionState :=
  (s.logs.drop s.logIndex, { s with logIndex := s.logs.length })

/-- An interleaving of appends and polls against one session. -/
inductive SessionOp
  | log (e : LogEntry)
  | poll
deriving DecidableEq, Repr

/-- Run an interleaved sequence of `log`/`get_new_logs` calls, collecting
each poll's returned slice. -/
def runSession : SessionState → List SessionOp → SessionState × List (List LogEntry)
  | s, [] => (s, [])
  | s, SessionOp.log e :: rest => runSession (sessionLog s e) rest
  | s, SessionOp.poll :: rest =>
    let out := get_new_logs s
    let r := runSession out.2 rest
    (r.1, out.1 :: r.2)

/-- The entries appended by an operation sequence, in order. -/
def loggedEntries (ops : List SessionOp) : List LogEntry :=
  ops.filterMap (fun op => match op with
    | SessionOp.log e => some e
    | SessionOp.poll => none)

/-- A fresh `ExtractionSession`: `logs = []`, `log_index = 0`. -/
def initialSession : SessionState := ⟨[], 0⟩

/-! ### Parallel dispatch loops and checkpoint saves
(src/app.py: author loop lines 1721-1752, paper loop lines 1892-1935) -/

/-- State of a result-collection loop: number of completions so far, the
freshly completed records in completion order, and the contents written by
each checkpoint save performed so far. -/
structure DispatchState (α : Type) where
  completed : Nat
  newly : List α
  saves : List (List α)
deriving DecidableEq, Repr

/-- One paper-enrichment completion (src/app.py lines 1908-1929): increment
`completed_count`, append the result to `newly_enriched_papers`, and call
`save_progress()` — which writes `already_enriched_papers +
newly_enriched_papers` — whenever `completed_count % 10 == 0`. -/
def paperStep {α : Type} (already : List α) (st : DispatchState α) (r : α) :
    DispatchState α :=
  let c := st.completed + 1
  let n := st.newly ++ [r]
  if c % 10 = 0 then ⟨c, n, st.saves ++ [already ++ n]⟩ else ⟨c, n, st.saves⟩

/-- The paper-enrichment collection loop over completion-ordered results. -/
def paperRun {α : Type} (already events : List α) : DispatchState α :=
  events.foldl (paperStep already) ⟨0, [], []⟩

/-- The final `save_progress()` after the paper loop (src/app.py line 1935). -/
def paperFinalSave {α : Type} (already events : List α) : List α :=
  already ++ (paperRun already events).newly

/-- One author-enrichment completion (src/app.py lines 1727-1742): increment
and append; the author loop performs no intermediate saves. -/
def authorStep {α : Type} (st : DispatchState α) (r : α) : DispatchState α :=
  ⟨st.completed + 1, st.newly ++ [r], st.saves⟩

/-- The author-enrichment collection loop. -/
def authorRun {α : Type} (events : List α) : DispatchState α :=
  events.foldl authorStep ⟨0, [], []⟩

/-- The single save after the author loop (src/app.py lines 1745-1750):
`already_enriched_authors + skipped_not_found_authors + newly_enriched_authors`. -/
def authorFinalSave {α : Type} (already skipped events : List α) : List α :=
  already ++ skipped ++ (authorRun events).newly

/-! ### Worker-boundary exception handling -/

/-- The outcome of `future.result()`: a returned value, or a raised
exception with its message. -/
inductive FutureResult (α : Type)
  | ok (val : α)
  | exn (msg : List Char)
deriving DecidableEq, Repr

/-- The author collection loop's handling of each `future.result()`
(src/app.py lines 1733-1742): an `ok` result is appended to
`newly_enriched_authors`; an exception is caught, logged, and nothing is
appended for that author. -/
def collectAuthorResults (results : List (FutureResult (AuthorStat × Bool))) :
    List AuthorStat :=
  results.foldl (fun acc r =>
    match r with
    | FutureResult.ok v => acc ++ [v.1]
    | FutureResult.exn _ => acc) []

/-- What `author_info` / `get_author_info` returns on success: a dict whose
keys may be absent, `null`, or strings. -/
structure AuthorInfoDict where
  affiliation? : Option (Option (List Char))
  role? : Option (Option (List Char))
  photo? : Option (Option (List Char))
  profile? : Option (Option (List Char))
deriving DecidableEq, Repr

/-- `enrich_single_author` (src/app.py lines 1705-1718): an info dict is
copied field-by-field with `'Unknown'` defaults; `None` from
`get_author_info` becomes an all-Unknown record. -/
def enrich_single_author (a : AuthorStat) (info : Option AuthorInfoDict) :
    AuthorStat × Bool :=
  match info with
  | some i =>
    ({ a with
        affiliation := getFieldD i.affiliation? unknownStr
        role := getFieldD i.role? unknownStr
        photoUrl := i.photo?.join
        profileUrl := i.profile?.join }, true)
  | none =>
    ({ a with
        affiliation := some unknownStr
        role := some unknownStr
        photoUrl := none
        profileUrl := none }, false)

/-- The enrichment payload parsed from the paper agent's response. -/
structure PaperEnrichment where
  keyFindings : List Char
  description : List Char
  keyContribution : List Char
  novelty : List Char
  categories : List (List Char)
deriving DecidableEq, Repr

/-- A paper record together with the enrichment fields that
`enrich_single_paper` writes. -/
structure EnrichedPaper where
  title : List Char
  keyFindings : List Char
  description : List Char
  keyContribution : List Char
  novelty : List Char
  aiCategories : List (List Char)
deriving DecidableEq, Repr

/-- `enrich_single_paper` in src/app.py (lines 1896-1932): the enrichment
call either raises, returns `None`, or returns a payload; the worker's own
`try/except` converts both failure shapes into an empty-fields record, so
the function is total and never raises. -/
def enrich_single_paper_app (title : List Char)
    (call : FutureResult (Option PaperEnrichment)) : EnrichedPaper × Bool :=
  match call with
  | FutureResult.ok (some e) =>
    (⟨title, e.keyFindings, e.description, e.keyContribution, e.novelty,
      e.categories⟩, true)
  | FutureResult.ok none => (⟨title, [], [], [], [], []⟩, false)
  | FutureResult.exn _ => (⟨title, [], [], [], [], []⟩, false)

/-- The paper collection loop (src/app.py lines 1912-1929) appends
`future.result()` for every dispatched paper; `enrich_single_paper` is total,
so every subject contributes exactly one record. -/
def collectPaperResults
    (inputs : List (List Char × FutureResult (Option PaperEnrichment))) :
    List EnrichedPaper :=
  inputs.foldl (fun acc pr => acc ++ [(enrich_single_paper_app pr.1 pr.2).1]) []

/-! ### Retry policy of the enrichment calls
(src/enrich_papers.py lines 127-160; src/openrouter_author_enrichment_agent.py) -/

/-- Outcome of one external-call attempt. -/
inductive AttemptOutcome
  | success (text : List Char)
  | nonzeroExit
  | timeoutExpired
  | otherError
deriving DecidableEq, Repr

/-- A transport failure, timeout, or other error — anything but success. -/
def isFailure (o : AttemptOutcome) : Bool :=
  match o with
  | AttemptOutcome.success _ => false
  | _ => true

/-- `timeout_seconds = 300 if attempt == 0 else 420` (src/enrich_papers.py
line 131). -/
def cliAttemptTimeout (attempt : Nat) : Nat := if attempt = 0 then 300 else 420

/-- `max_retries = 2` (src/enrich_papers.py line 128). -/
def cliMaxRetries : Nat := 2

/-- The retry loop of `enrich_single_paper` in src/enrich_papers.py:
attempt 0, then on any failure attempt 1; when both fail, the function
returns `None` after printing — it never raises. -/
def cliRetryLoop (outcome : Nat → AttemptOutcome) : Option (List Char) :=
  match outcome 0 with
  | AttemptOutcome.success s => some s
  | _ =>
    match outcome 1 with
    | AttemptOutcome.success s => some s
    | _ => none

/-- The OpenRouter author agent issues exactly one call per
`get_author_info` invocation (no loop around `self.client.responses.create`). -/
def authorAgentAttempts : Nat := 1

/-- The author agent client's fixed timeout: `timeout=30.0`. -/
def authorAgentTimeoutSeconds : Nat := 30

/-- `get_author_info`'s single attempt: any non-success outcome
(`APITimeoutError` or any other exception) returns `None`, never raises. -/
def authorAgentCall (outcome : AttemptOutcome) : Option (List Char) :=
  match outcome with
  | AttemptOutcome.success s => some s
  | _ => none

/-! ### Defensive JSON extraction
(src/openrouter_paper_enrichment_agent.py `_parse_json_response` lines
219-267; src/openrouter_author_enrichment_agent.py lines 124-135) -/

/-- The suffix of `l` starting at the first occurrence of `sub`, or `none`
when `sub` does not occur in `l`. -/
def findSub (sub : List Char) : List Char → Option (List Char)
  | [] => if sub.isPrefixOf ([] : List Char) then some [] else none
  | c :: rest =>
    if sub.isPrefixOf (c :: rest) then some (c :: rest) else findSub sub rest

/-- The prefix of `l` before the first occurrence of `sub` (all of `l` when
`sub` is absent) — Python `l.split(sub)[0]`. -/
def takeUntilSub (sub : List Char) : List Char → List Char
  | [] => []
  | c :: rest =>
    if sub.isPrefixOf (c :: rest) then [] else c :: takeUntilSub sub rest

/-- The `'```json'` fence marker. -/
def fenceJson : List Char := "```json".data

/-- The `'```'` fence marker. -/
def fence : List Char := "```".data

/-- The markdown-fence stripping shared by both agents:
`t.split('```json')[1].split('```')[0].strip()` when `'```json' in t`,
else `t.split('```')[1].split('```')[0].strip()` when `'```' in t`,
else `t` unchanged.  (`split(sep)[1]` followed by `split('```')[0]` equals
the text after the first marker up to the next `'```'`.) -/
def stripFences (t : List Char) : List Char :=
  match findSub fenceJson t with
  | some suffix => pyStrip (takeUntilSub fence (suffix.drop fenceJson.length))
  | none =>
    match findSub fence t with
    | some suffix => pyStrip (takeUntilSub fence (suffix.drop fence.length))
    | none => t

/-- The brace-counting scan of `_parse_json_response` (lines 236-252 of the
paper agent): `depth` is the running `brace_count` and `acc` the consumed
text; returns the accumulated text when the count returns to zero, `none`
when it never does (`if brace_count != 0: return None`). -/
def braceLoop : List Char → Nat → List Char → Option (List Char)
  | [], _, _ => none
  | c :: rest, depth, acc =>
    if c = '{' then braceLoop rest (depth + 1) (acc ++ [c])
    else if c = '}' then
      if depth = 1 then some (acc ++ [c])
      else braceLoop rest (depth - 1) (acc ++ [c])
    else braceLoop rest depth (acc ++ [c])

/-- `start = response_text.find('{')` (`none` when absent) followed by the
brace-matching scan: the extracted `json_str`. -/
def extractBraced (t : List Char) : Option (List Char) :=
  match t.dropWhile (· ≠ '{') with
  | [] => none
  | c :: rest => braceLoop rest 1 [c]

/-- `_parse_json_response` up to the `json.loads` call: fence stripping
followed by balanced-object extraction (the paper worker). -/
def parse_json_response (t : List Char) : Option (List Char) :=
  extractBraced (stripFences t)

/-- The author agent's `re.search(r'\x7b[^\x7d]+\x7d', text, re.DOTALL)`:
the leftmost occurrence of a `{`, followed by one or more non-`}`
characters, followed by `}`. -/
def regexBraceSearch : List Char → Option (List Char)
  | [] => none
  | c :: rest =>
    if c = '{' then
      let body := rest.takeWhile (· ≠ '}')
      if body ≠ [] ∧ body.length < rest.length then
        some ('{' :: (body ++ ['}']))
      else regexBraceSearch rest
    else regexBraceSearch rest

/-- The author worker's JSON location step (src/openrouter_author_enrichment_agent.py
lines 124-132): fence-strip, then replace the text by the regex match when one
exists; the result is handed to `json.loads`, whose failure returns `None`. -/
def authorLocateJson (t : List Char) : List Char :=
  match regexBraceSearch (stripFences t) with
  | some m => m
  | none => stripFences t

/-- Equal numbers of opening and closing braces — a necessary condition for
an extracted string to be a balanced JSON object. -/
def braceCountEq (l : List Char) : Bool := l.count '{' == l.count '}'

/-! ### Category reuse decision
(src/app.py lines 1824-1830; src/enrich_papers.py lines 299-307) -/

/-- `if existing_categories and len(papers_to_enrich) < len(cleaned_papers) * 0.5`:
reuse the stored categories exactly when some exist and fewer than half of
the papers need enrichment.  (`n < m * 0.5` on exact integer-valued floats
is `2 * n < m`.) -/
def reuseCategories (existingCategories : List (List Char))
    (nToEnrich nTotal : Nat) : Bool :=
  !existingCategories.isEmpty && decide (2 * nToEnrich < nTotal)

/-! ### Concrete inputs used in example and counterexample theorems -/

/-- The spec's deduplication example: titles `["A", "a ", "B"]` with
fractional scores `0.9 / 0.1 / 0.6`. -/
def dedupExample : List RawPaper :=
  [⟨"A".data, some (9/10)⟩, ⟨"a ".data, some (1/10)⟩, ⟨"B".data, some (6/10)⟩]

/-- Two records with the same title where the first is sub-threshold. -/
def lowFirstDupInput : List RawPaper :=
  [⟨"X".data, some (1/10)⟩, ⟨"X".data, some (9/10)⟩]

/-- A response text whose JSON object has nested braces. -/
def nestedResponse : List Char := "\x7b\"a\": \x7b\"b\": 1\x7d\x7d".data

/-- A persisted author with a successful enrichment. -/
def samplePersisted : PersistedAuthor :=
  ⟨"Ada Lovelace".data, some (some "MIT".data), some (some "Professor".data),
    some none, some none⟩

/-- A persisted author whose prior attempt returned Unknown values
(the `not_found` status). -/
def sampleAttempted : PersistedAuthor :=
  ⟨"Alan Turing".data, some (some "Unknown".data), some (some "Unknown".data),
    some none, some none⟩

/-- A candidate author with one highly relevant paper. -/
def sampleStat (n : List Char) : AuthorStat := ⟨n, 1, none, none, none, none⟩

end PaperAtlas

namespace PaperAtlas

/-! ## Helper lemmas -/

theorem collectAuthorResults_go (results : List (FutureResult (AuthorStat × Bool)))
    (acc : List AuthorStat) :
    results.foldl (fun acc r =>
      match r with
      | FutureResult.ok v => acc ++ [v.1]
      | FutureResult.exn _ => acc) acc =
    acc ++ results.filterMap (fun r =>
      match r with
      | FutureResult.ok v => some v.1
      | FutureResult.exn _ => none) := by
  induction results generalizing acc with
  | nil => simp
  | cons r rest ih =>
    cases r with
    | ok v => simp [List.foldl_cons, ih]
    | exn m => simp [List.foldl_cons, ih]

theorem collectAuthorResults_eq (results : List (FutureResult (AuthorStat × Bool))) :
    collectAuthorResults results =
    results.filterMap (fun r =>
      match r with
      | FutureResult.ok v => some v.1
      | FutureResult.exn _ => none) := by
  simpa using collectAuthorResults_go results []

theorem collectPaperResults_go
    (inputs : List (List Char × FutureResult (Option PaperEnrichment)))
    (acc : List EnrichedPaper) :
    inputs.foldl (fun acc pr => acc ++ [(enrich_single_paper_app pr.1 pr.2).1]) acc =
    acc ++ inputs.map (fun pr => (enrich_single_paper_app pr.1 pr.2).1) := by
  induction inputs generalizing acc with
  | nil => simp
  | cons pr rest ih => simp [List.foldl_cons, ih]

theorem collectPaperResults_eq
    (inputs : List (List Char × FutureResult (Option PaperEnrichment))) :
    collectPaperResults inputs =
    inputs.map (fun pr => (enrich_single_paper_app pr.1 pr.2).1) := by
  simpa [collectPaperResults] using collectPaperResults_go inputs []

theorem authorRun_go {α : Type} (events : List α) (st : DispatchState α) :
    events.foldl authorStep st =
    ⟨st.completed + events.length, st.newly ++ events, st.saves⟩ := by
  induction events generalizing st with
  | nil => simp
  | cons e rest ih =>
    simp [List.foldl_cons, authorStep, ih]
    omega

theorem authorRun_eq {α : Type} (events : List α) :
    authorRun events = ⟨events.length, events, []⟩ := by
  simp [authorRun, authorRun_go]

/-! ## Claim theorems -/

/-- C8 counterexample: with a stored CategorySet (`["ML"]`) present and both
of the 2 papers needing enrichment (none of them reusable), the code takes
the regenerate branch (`reuseCategories = false`), although "fewer than half
of the papers are new" is false here — so, as the claim states it, the
stored category list would have to be reused.  The claim has the condition
inverted. -/
theorem reuseCategories_counterexample :
    reuseCategories ["ML".data] 2 2 = false ∧ ¬ (2 * 2 < 2) := by
  constructor
  · rfl
  · decide

/-- C8 amended: given that a stored CategorySet exists, the categories are
REUSED exactly when fewer than half of the papers need enrichment, and
regenerated when at least half are new (or when no stored set exists). -/
theorem reuseCategories_iff (existing : List (List Char)) (nToEnrich nTotal : Nat)
    (h : existing ≠ []) :
    reuseCategories existing nToEnrich nTotal = true ↔ 2 * nToEnrich < nTotal := by
  unfold reuseCategories
  cases existing with
  | nil => exact absurd rfl h
  | cons c cs => simp

/-- C8 witness: the amended theorem applied at a concrete input. -/
theorem reuseCategories_iff_witness :
    reuseCategories ["ML".data] 1 4 = true ↔ 2 * 1 < 4 :=
  reuseCategories_iff ["ML".data] 1 4 (by decide)

/-- C5 counterexample: the one worker that does retry — `enrich_single_paper`
in src/enrich_papers.py — uses timeouts 300 s then 420 s, and
`2 * 420 < 3 * 300`, i.e. the second attempt's timeout is 1.4× the first,
strictly below the claimed factor of at least 1.5; moreover the OpenRouter
author worker makes only a single attempt, so it does not retry at all. -/
theorem retryPolicy_counterexample :
    cliMaxRetries = 2 ∧ cliAttemptTimeout 0 = 300 ∧ cliAttemptTimeout 1 = 420 ∧
    2 * cliAttemptTimeout 1 < 3 * cliAttemptTimeout 0 ∧
    authorAgentAttempts = 1 := by
  refine ⟨rfl, rfl, rfl, ?_, rfl⟩
  decide

/-- C5 amended: the CLI paper worker makes two attempts total with a strictly
increased (though only 1.4×) timeout and returns `None` — never raising —
when both attempts fail; the OpenRouter author worker makes a single attempt
with a fixed 30-second timeout and returns `None` on any failure. -/
theorem retryPolicy_amended (o : Nat → AttemptOutcome) (o1 : AttemptOutcome)
    (h0 : isFailure (o 0) = true) (h1 : isFailure (o 1) = true)
    (ha : isFailure o1 = true) :
    cliRetryLoop o = none ∧
    cliMaxRetries = 2 ∧
    cliAttemptTimeout 0 < cliAttemptTimeout 1 ∧
    authorAgentCall o1 = none ∧
    authorAgentAttempts = 1 ∧ authorAgentTimeoutSeconds = 30 := by
  refine ⟨?_, rfl, by decide, ?_, rfl, rfl⟩
  · unfold cliRetryLoop
    cases ho0 : o 0 with
    | success s => rw [ho0] at h0; simp [isFailure] at h0
    | nonzeroExit | timeoutExpired | otherError =>
      cases ho1 : o 1 with
      | success s => rw [ho1] at h1; simp [isFailure] at h1
      | nonzeroExit | timeoutExpired | otherError => rfl
  · cases o1 with
    | success s => simp [isFailure] at ha
    | nonzeroExit | timeoutExpired | otherError => rfl

/-- C5 witness: the amended theorem applied to concretely failing attempts. -/
theorem retryPolicy_amended_witness :
    cliRetryLoop (fun _ => AttemptOutcome.timeoutExpired) = none ∧
    cliMaxRetries = 2 ∧
    cliAttemptTimeout 0 < cliAttemptTimeout 1 ∧
    authorAgentCall AttemptOutcome.otherError = none ∧
    authorAgentAttempts = 1 ∧ authorAgentTimeoutSeconds = 30 :=
  retryPolicy_amended (fun _ => AttemptOutcome.timeoutExpired)
    AttemptOutcome.otherError rfl rfl rfl

/-- C4 counterexample: in the author stage, an exception surfacing at
`future.result()` is caught and logged but NOT converted into a degraded
record: dispatching one author whose worker raises leaves the
newly-processed set empty, so the merged file holds zero outcomes for the
one dispatched subject — the record is dropped, contrary to the claim that
it is "still appended to the newly-processed set". -/
theorem workerException_counterexample :
    collectAuthorResults [FutureResult.exn "boom".data] = [] ∧
    ([] : List AuthorStat).length ≠ 1 := by
  constructor
  · rfl
  · decide

/-- C4 amended: in the paper stage every exception is caught inside
`enrich_single_paper`, converted to an empty-fields record, and appended, so
the collection yields exactly one outcome per dispatched subject; in the
author stage a failed enrichment call that RETURNS `None` is degraded to an
all-Unknown record, but an exception that escapes the worker is only caught
and logged at the collection loop — the batch continues, yet that author's
record is omitted from the merged set. -/
theorem workerException_amended
    (inputs : List (List Char × FutureResult (Option PaperEnrichment)))
    (ares : List (FutureResult (AuthorStat × Bool)))
    (a : AuthorStat) (t m : List Char) :
    (collectPaperResults inputs).length = inputs.length ∧
    enrich_single_paper_app t (FutureResult.exn m) =
      (⟨t, [], [], [], [], []⟩, false) ∧
    enrich_single_author a none =
      ({ a with affiliation := some unknownStr, role := some unknownStr,
                photoUrl := none, profileUrl := none }, false) ∧
    collectAuthorResults ares = ares.filterMap (fun r =>
      match r with
      | FutureResult.ok v => some v.1
      | FutureResult.exn _ => none) := by
  refine ⟨?_, rfl, rfl, collectAuthorResults_eq ares⟩
  rw [collectPaperResults_eq, List.length_map]

/-- C3 counterexample: a 12-completion author-enrichment batch performs no
checkpoint save at all (`saves = []`), although the claim requires each
enrichment stage to persist after every `checkpointEvery = 10` completions;
the paper loop, by contrast, does checkpoint once during the same batch. -/
theorem authorCheckpoint_counterexample :
    (authorRun (List.replicate 12 (0 : Nat))).completed = 12 ∧
    (authorRun (List.replicate 12 (0 : Nat))).saves = [] ∧
    (paperRun ([] : List Nat) (List.replicate 12 0)).saves.length = 1 := by
  refine ⟨?_, ?_, ?_⟩ <;> decide

/-- C10: over any interleaving of `log` appends and `get_new_logs` polls
starting from a fresh session, the concatenation of all polled slices
followed by the still-unpolled tail equals exactly the appended entries in
append order — every log entry is delivered to the polling client exactly
once and in order. -/
theorem get_new_logs_delivers_once (ops : List SessionOp) :
    (runSession initialSession ops).2.flatten ++
      (runSession initialSession ops).1.logs.drop
        (runSession initialSession ops).1.logIndex = loggedEntries ops ∧
    (runSession initialSession ops).1.logs = loggedEntries ops := by
  have main : ∀ (ops : List SessionOp) (s : SessionState),
      s.logIndex ≤ s.logs.length →
      (runSession s ops).1.logs = s.logs ++ loggedEntries ops ∧
      (runSession s ops).1.logIndex ≤ (runSession s ops).1.logs.length ∧
      (runSession s ops).2.flatten ++
        (runSession s ops).1.logs.drop (runSession s ops).1.logIndex =
        s.logs.drop s.logIndex ++ loggedEntries ops := by
    intro ops
    induction ops with
    | nil => intro s h; simp [runSession, loggedEntries]; exact h
    | cons op rest ih =>
      intro s h
      cases op with
      | log e =>
        have h' : (sessionLog s e).logIndex ≤ (sessionLog s e).logs.length := by
          simp [sessionLog]; omega
        obtain ⟨ih1, ih2, ih3⟩ := ih (sessionLog s e) h'
        refine ⟨?_, ?_, ?_⟩
        · simp only [runSession]
          rw [ih1]
          simp [sessionLog, loggedEntries]
        · simpa [runSession] using ih2
        · simp only [runSession]
          rw [ih3]
          simp only [sessionLog, loggedEntries, List.filterMap_cons]
          rw [List.drop_append_of_le_length h]
          simp
      | poll =>
        have h' : (get_new_logs s).2.logIndex ≤ (get_new_logs s).2.logs.length := by
          simp [get_new_logs]
        obtain ⟨ih1, ih2, ih3⟩ := ih (get_new_logs s).2 h'
        refine ⟨?_, ?_, ?_⟩
        · simp only [runSession]
          rw [ih1]
          simp [get_new_logs, loggedEntries]
        · simpa [runSession] using ih2
        · simp only [runSession, List.flatten_cons]
          rw [List.append_assoc, ih3]
          simp [get_new_logs, loggedEntries]
  have h0 : initialSession.logIndex ≤ initialSession.logs.length := by
    simp [initialSession]
  obtain ⟨h1, _, h3⟩ := main ops initialSession h0
  refine ⟨?_, ?_⟩
  · rw [h3]; simp [initialSession]
  · rw [h1]; simp [initialSession]

theorem dictLookup_cons {β : Type} (x : List Char × β)
    (rest : List (List Char × β)) (k : List Char) :
    dictLookup (x :: rest) k =
      if x.1 == k then some x.2 else dictLookup rest k := by
  unfold dictLookup
  cases hx : (x.1 == k) with
  | true => simp [List.find?_cons, hx]
  | false => simp [List.find?_cons, hx]

theorem dictLookup_map_insert_self {β : Type} (d : List (List Char × β))
    (k : List Char) (v : β) (h : d.any (fun kv => kv.1 == k) = true) :
    dictLookup (d.map (fun kv => if kv.1 == k then (k, v) else kv)) k = some v := by
  induction d with
  | nil => simp at h
  | cons a rest ih =>
    by_cases hb : (a.1 == k) = true
    · rw [List.map_cons, if_pos hb, dictLookup_cons,
        if_pos (beq_self_eq_true k)]
    · have h' : rest.any (fun kv => kv.1 == k) = true := by
        rw [List.any_cons] at h
        simp only [Bool.not_eq_true] at hb
        rw [hb] at h
        rwa [Bool.false_or] at h
      rw [List.map_cons, if_neg hb, dictLookup_cons]
      simp only [Bool.not_eq_true] at hb
      rw [hb]
      simpa using ih h'

theorem dictLookup_append_single_self {β : Type} (d : List (List Char × β))
    (k : List Char) (v : β) (h : d.any (fun kv => kv.1 == k) = false) :
    dictLookup (d ++ [(k, v)]) k = some v := by
  induction d with
  | nil =>
    rw [List.nil_append, dictLookup_cons]
    simp
  | cons a rest ih =>
    rw [List.any_cons, Bool.or_eq_false_iff] at h
    rw [List.cons_append, dictLookup_cons, h.1]
    simpa using ih h.2

theorem dictLookup_insert_self {β : Type} (d : List (List Char × β))
    (k : List Char) (v : β) :
    dictLookup (dictInsert d k v) k = some v := by
  unfold dictInsert
  by_cases h : d.any (fun kv => kv.1 == k) = true
  · rw [if_pos h]
    exact dictLookup_map_insert_self d k v h
  · rw [if_neg h]
    exact dictLookup_append_single_self d k v (by rwa [Bool.not_eq_true] at h)

theorem dictLookup_map_insert_ne {β : Type} (d : List (List Char × β))
    (k k' : List Char) (v : β) (hne : (k == k') = false) :
    dictLookup (d.map (fun kv => if kv.1 == k then (k, v) else kv)) k' =
      dictLookup d k' := by
  induction d with
  | nil => rfl
  | cons a rest ih =>
    by_cases hb : (a.1 == k) = true
    · have ha1 : a.1 = k := by simpa using hb
      rw [List.map_cons, if_pos hb, dictLookup_cons, dictLookup_cons, ha1, hne]
      simpa using ih
    · rw [List.map_cons, if_neg hb, dictLookup_cons, dictLookup_cons]
      cases hak : (a.1 == k') with
      | true => rfl
      | false => simpa using ih

theorem dictLookup_append_single_ne {β : Type} (d : List (List Char × β))
    (k k' : List Char) (v : β) (hne : (k == k') = false) :
    dictLookup (d ++ [(k, v)]) k' = dictLookup d k' := by
  induction d with
  | nil =>
    rw [List.nil_append, dictLookup_cons, hne]
    rfl
  | cons a rest ih =>
    rw [List.cons_append, dictLookup_cons, dictLookup_cons]
    cases hak : (a.1 == k') with
    | true => rfl
    | false => simpa using ih

theorem dictLookup_insert_ne {β : Type} (d : List (List Char × β))
    (k k' : List Char) (v : β) (h : k' ≠ k) :
    dictLookup (dictInsert d k v) k' = dictLookup d k' := by
  have hne : (k == k') = false := by
    rw [beq_eq_false_iff_ne]
    exact fun e => h e.symm
  unfold dictInsert
  by_cases hany : d.any (fun kv => kv.1 == k) = true
  · rw [if_pos hany]
    exact dictLookup_map_insert_ne d k k' v hne
  · rw [if_neg hany]
    exact dictLookup_append_single_ne d k k' v hne



theorem applyExisting_name (a : AuthorStat) (p : PersistedAuthor) :
    (applyExisting a p).name = a.name := rfl

theorem load_preserve (entries : List PersistedAuthor)
    (acc : List (List Char × PersistedAuthor) × List (List Char × PersistedAuthor))
    (k : List Char) (h : ∀ p ∈ entries, p.name ≠ k) :
    dictLookup (entries.foldl loadStep acc).1 k = dictLookup acc.1 k ∧
    dictLookup (entries.foldl loadStep acc).2 k = dictLookup acc.2 k := by
  induction entries generalizing acc with
  | nil => exact ⟨rfl, rfl⟩
  | cons p rest ih =>
    have hp : k ≠ p.name := fun e => h p (by simp) e.symm
    have hrest : ∀ q ∈ rest, q.name ≠ k := fun q hq => h q (by simp [hq])
    rw [List.foldl_cons]
    have hstep1 : dictLookup (loadStep acc p).1 k = dictLookup acc.1 k := by
      unfold loadStep
      by_cases hreq : has_required_fields p = true
      · by_cases hinfo : has_info p = true
        · simp only [hreq, Bool.not_true, hinfo, if_pos, if_neg,
            Bool.false_eq_true, ite_false, ite_true]
          exact dictLookup_insert_ne _ _ _ _ hp
        · simp only [Bool.not_eq_true] at hinfo
          simp only [hreq, Bool.not_true, hinfo, Bool.false_eq_true, ite_false]
      · simp only [Bool.not_eq_true] at hreq
        simp only [hreq, Bool.not_false, ite_true]
    have hstep2 : dictLookup (loadStep acc p).2 k = dictLookup acc.2 k := by
      unfold loadStep
      by_cases hreq : has_required_fields p = true
      · by_cases hinfo : has_info p = true
        · simp only [hreq, Bool.not_true, hinfo, Bool.false_eq_true, ite_false,
            ite_true]
        · simp only [Bool.not_eq_true] at hinfo
          simp only [hreq, Bool.not_true, hinfo, Bool.false_eq_true, ite_false]
          exact dictLookup_insert_ne _ _ _ _ hp
      · simp only [Bool.not_eq_true] at hreq
        simp only [hreq, Bool.not_false, ite_true]
    obtain ⟨i1, i2⟩ := ih (loadStep acc p) hrest
    exact ⟨i1.trans hstep1, i2.trans hstep2⟩

theorem load_attempted (entries : List PersistedAuthor)
    (acc : List (List Char × PersistedAuthor) × List (List Char × PersistedAuthor))
    (r : PersistedAuthor)
    (hreq : has_required_fields r = true) (hinf : has_info r = false)
    (hmem : r ∈ entries)
    (hnodup : (entries.map PersistedAuthor.name).Nodup)
    (haccE : dictLookup acc.1 r.name = none) :
    dictLookup (entries.foldl loadStep acc).1 r.name = none ∧
    dictLookup (entries.foldl loadStep acc).2 r.name = some r := by
  revert hmem hnodup
  induction entries generalizing acc with
  | nil => intro hmem _; cases hmem
  | cons p rest ih =>
    intro hmem hnodup
    rw [List.map_cons, List.nodup_cons] at hnodup
    rw [List.foldl_cons]
    rcases List.mem_cons.mp hmem with hpr | hmem'
    · subst hpr
      have hrestnames : ∀ q ∈ rest, q.name ≠ r.name := by
        intro q hq heq
        exact hnodup.1 (heq ▸ List.mem_map_of_mem PersistedAuthor.name hq)
      have hstep : loadStep acc r = (acc.1, dictInsert acc.2 r.name r) := by
        unfold loadStep
        simp only [hreq, Bool.not_true, hinf, Bool.false_eq_true, ite_false]
      rw [hstep]
      obtain ⟨i1, i2⟩ :=
        load_preserve rest (acc.1, dictInsert acc.2 r.name r) r.name hrestnames
      refine ⟨?_, ?_⟩
      · rw [i1]; exact haccE
      · rw [i2]; exact dictLookup_insert_self _ _ _
    · have hpn : r.name ≠ p.name := by
        intro heq
        exact hnodup.1 (heq ▸ List.mem_map_of_mem PersistedAuthor.name hmem')
      have hE : dictLookup (loadStep acc p).1 r.name = dictLookup acc.1 r.name := by
        unfold loadStep
        by_cases hreqp : has_required_fields p = true
        · by_cases hinfop : has_info p = true
          · simp only [hreqp, Bool.not_true, hinfop, Bool.false_eq_true,
              ite_false, ite_true]
            exact dictLookup_insert_ne _ _ _ _ hpn
          · simp only [Bool.not_eq_true] at hinfop
            simp only [hreqp, Bool.not_true, hinfop, Bool.false_eq_true,
              ite_false]
        · simp only [Bool.not_eq_true] at hreqp
          simp only [hreqp, Bool.not_false, ite_true]
      exact ih (loadStep acc p) (by rw [hE]; exact haccE) hmem' hnodup.2

theorem partitionAuthors_parts (enr att : List (List Char × PersistedAuthor))
    (cs : List AuthorStat) :
    (((partitionAuthors enr att cs).1 ++ (partitionAuthors enr att cs).2.1 ++
        (partitionAuthors enr att cs).2.2).map AuthorStat.name).Perm
      (cs.map AuthorStat.name) ∧
    (∀ x ∈ (partitionAuthors enr att cs).1,
      (dictLookup enr x.name).isSome = true) ∧
    (∀ x ∈ (partitionAuthors enr att cs).2.1,
      dictLookup enr x.name = none ∧ (dictLookup att x.name).isSome = true) ∧
    (∀ x ∈ (partitionAuthors enr att cs).2.2,
      dictLookup enr x.name = none ∧ dictLookup att x.name = none) := by
  induction cs with
  | nil =>
    refine ⟨by simp [partitionAuthors], ?_, ?_, ?_⟩ <;>
      · intro x hx; simp [partitionAuthors] at hx
  | cons a rest ih =>
    obtain ⟨hperm, h1, h2, h3⟩ := ih
    simp only [List.map_append, List.append_assoc] at hperm
    simp only [partitionAuthors]
    cases he : dictLookup enr a.name with
    | some p =>
      refine ⟨?_, ?_, h2, h3⟩
      · simp only [List.cons_append, List.map_cons, applyExisting_name,
          List.map_append, List.append_assoc]
        exact hperm.cons a.name
      · intro x hx
        rcases List.mem_cons.mp hx with hx | hx
        · subst hx; rw [applyExisting_name, he]; rfl
        · exact h1 x hx
    | none =>
      cases ha : dictLookup att a.name with
      | some p =>
        refine ⟨?_, h1, ?_, h3⟩
        · simp only [List.map_append, List.map_cons, List.cons_append,
            List.append_assoc, applyExisting_name]
          exact List.perm_middle.trans (hperm.cons a.name)
        · intro x hx
          rcases List.mem_cons.mp hx with hx | hx
          · subst hx
            rw [applyExisting_name]
            exact ⟨he, by rw [ha]; rfl⟩
          · exact h2 x hx
      | none =>
        refine ⟨?_, h1, h2, ?_⟩
        · simp only [List.map_append, List.map_cons, List.cons_append,
            List.append_assoc]
          have p1 := List.Perm.append_left
            ((partitionAuthors enr att rest).1.map AuthorStat.name)
            (@List.perm_middle _ a.name
              ((partitionAuthors enr att rest).2.1.map AuthorStat.name)
              ((partitionAuthors enr att rest).2.2.map AuthorStat.name))
          exact p1.trans (List.perm_middle.trans (hperm.cons a.name))
        · intro x hx
          rcases List.mem_cons.mp hx with hx | hx
          · subst hx; exact ⟨he, ha⟩
          · exact h3 x hx

theorem paperRun_spec {α : Type} (already : List α) (events : List α) :
    paperRun already events =
      ⟨events.length, events,
        (List.range (events.length / 10)).map
          (fun j => already ++ events.take (10 * (j + 1)))⟩ := by
  induction events using List.reverseRecOn with
  | nil => simp [paperRun]
  | append_singleton es e ih =>
    have hstep : paperRun already (es ++ [e]) =
        paperStep already (paperRun already es) e := by
      simp [paperRun, List.foldl_append]
    have htake : ∀ j ∈ List.range (es.length / 10),
        already ++ (es ++ [e]).take (10 * (j + 1)) =
        already ++ es.take (10 * (j + 1)) := by
      intro j hj
      rw [List.mem_range] at hj
      rw [List.take_append_of_le_length (by omega)]
    rw [hstep, ih]
    by_cases hmod : (es.length + 1) % 10 = 0
    · have hdiv : (es.length + 1) / 10 = es.length / 10 + 1 := by omega
      have hlast : (es ++ [e]).take (10 * (es.length / 10 + 1)) = es ++ [e] := by
        apply List.take_of_length_le
        simp only [List.length_append, List.length_cons, List.length_nil]
        omega
      simp only [paperStep]
      rw [if_pos hmod]
      simp only [DispatchState.mk.injEq]
      refine ⟨by simp, trivial, ?_⟩
      simp only [List.length_append, List.length_cons, List.length_nil]
      rw [hdiv, List.range_succ, List.map_append, List.map_cons, List.map_nil]
      rw [hlast]
      congr 1
      exact (List.map_congr_left htake).symm
    · have hdiv : (es.length + 1) / 10 = es.length / 10 := by omega
      simp only [paperStep]
      rw [if_neg hmod]
      simp only [DispatchState.mk.injEq]
      refine ⟨by simp, trivial, ?_⟩
      simp only [List.length_append, List.length_cons, List.length_nil]
      rw [hdiv]
      exact (List.map_congr_left htake).symm

/-- C3 amended: only the paper-enrichment loop checkpoints — after every 10
completions it persists the already-enriched records followed by the first
`10 * (j + 1)` freshly completed ones in completion order, so at most 9
completed units are ever unpersisted, and a final save writes everything;
the author-enrichment loop performs no intermediate save at all and writes
its single combined save (already ++ skipped ++ newly) only after all of its
futures complete — which still happens before paper enrichment begins. -/
theorem checkpoint_schedule (already skipped events : List (List Char)) :
    (authorRun events).newly = events ∧
    (authorRun events).saves = [] ∧
    authorFinalSave already skipped events = already ++ skipped ++ events ∧
    (paperRun already events).newly = events ∧
    (paperRun already events).completed = events.length ∧
    (paperRun already events).saves =
      (List.range (events.length / 10)).map
        (fun j => already ++ events.take (10 * (j + 1))) ∧
    paperFinalSave already events = already ++ events ∧
    events.length - 10 * (paperRun already events).saves.length ≤ 9 := by
  have ha := authorRun_eq events
  have hp := paperRun_spec already events
  refine ⟨by rw [ha], by rw [ha], by simp [authorFinalSave, ha],
    by rw [hp], by rw [hp], by rw [hp],
    by simp [paperFinalSave, hp], ?_⟩
  rw [hp]
  simp only [List.length_map, List.length_range]
  omega

theorem partition_mem_attempted (enr att : List (List Char × PersistedAuthor))
    (cs : List AuthorStat) (a : AuthorStat) (ha : a ∈ cs)
    (he : dictLookup enr a.name = none)
    (hatt : (dictLookup att a.name).isSome = true) :
    ∃ x ∈ (partitionAuthors enr att cs).2.1, x.name = a.name := by
  induction cs with
  | nil => cases ha
  | cons b rest ih =>
    simp only [partitionAuthors]
    rcases List.mem_cons.mp ha with hab | ha'
    · subst hab
      rw [he]
      cases hsome : dictLookup att a.name with
      | none => rw [hsome] at hatt; exact Bool.noConfusion hatt
      | some p =>
        exact ⟨applyExisting a p, List.mem_cons_self _ _, applyExisting_name a p⟩
    · obtain ⟨x, hx, hxn⟩ := ih ha'
      cases hb : dictLookup enr b.name with
      | some p => exact ⟨x, hx, hxn⟩
      | none =>
        cases hb2 : dictLookup att b.name with
        | some p => exact ⟨x, List.mem_cons_of_mem _ hx, hxn⟩
        | none => exact ⟨x, hx, hxn⟩

/-- C1: for every candidate author list and every pair of loaded prior-state
dicts, the partition step produces three lists that are pairwise disjoint and
whose concatenation carries exactly the candidate names (a permutation — no
omission, no duplication); membership in each list is characterised by the
candidate's prior state: already-enriched names are in the enriched dict,
skipped names are in the attempted dict only, and to-enrich names are in
neither. -/
theorem partition_complete (enr att : List (List Char × PersistedAuthor))
    (cs : List AuthorStat) :
    (((partitionAuthors enr att cs).1 ++ (partitionAuthors enr att cs).2.1 ++
        (partitionAuthors enr att cs).2.2).map AuthorStat.name).Perm
      (cs.map AuthorStat.name) ∧
    (∀ x, ¬(x ∈ (partitionAuthors enr att cs).1 ∧
        x ∈ (partitionAuthors enr att cs).2.1)) ∧
    (∀ x, ¬(x ∈ (partitionAuthors enr att cs).1 ∧
        x ∈ (partitionAuthors enr att cs).2.2)) ∧
    (∀ x, ¬(x ∈ (partitionAuthors enr att cs).2.1 ∧
        x ∈ (partitionAuthors enr att cs).2.2)) ∧
    (∀ x ∈ (partitionAuthors enr att cs).1,
      (dictLookup enr x.name).isSome = true) ∧
    (∀ x ∈ (partitionAuthors enr att cs).2.1,
      dictLookup enr x.name = none ∧ (dictLookup att x.name).isSome = true) ∧
    (∀ x ∈ (partitionAuthors enr att cs).2.2,
      dictLookup enr x.name = none ∧ dictLookup att x.name = none) := by
  obtain ⟨hperm, h1, h2, h3⟩ := partitionAuthors_parts enr att cs
  refine ⟨hperm, ?_, ?_, ?_, h1, h2, h3⟩
  · rintro x ⟨hx1, hx2⟩
    have hs := h1 x hx1
    rw [(h2 x hx2).1] at hs
    exact Bool.noConfusion hs
  · rintro x ⟨hx1, hx2⟩
    have hs := h1 x hx1
    rw [(h3 x hx2).1] at hs
    exact Bool.noConfusion hs
  · rintro x ⟨hx1, hx2⟩
    have hs := (h2 x hx1).2
    rw [(h3 x hx2).2] at hs
    exact Bool.noConfusion hs

/-- C1 witness: the partition theorem applied to a concrete prior state and
candidate list (the name-permutation component). -/
theorem partition_complete_witness :
    (((partitionAuthors [(samplePersisted.name, samplePersisted)]
          [(sampleAttempted.name, sampleAttempted)]
          [sampleStat "Ada Lovelace".data, sampleStat "Alan Turing".data,
            sampleStat "Grace Hopper".data]).1 ++
        (partitionAuthors [(samplePersisted.name, samplePersisted)]
          [(sampleAttempted.name, sampleAttempted)]
          [sampleStat "Ada Lovelace".data, sampleStat "Alan Turing".data,
            sampleStat "Grace Hopper".data]).2.1 ++
        (partitionAuthors [(samplePersisted.name, samplePersisted)]
          [(sampleAttempted.name, sampleAttempted)]
          [sampleStat "Ada Lovelace".data, sampleStat "Alan Turing".data,
            sampleStat "Grace Hopper".data]).2.2).map AuthorStat.name).Perm
      (([sampleStat "Ada Lovelace".data, sampleStat "Alan Turing".data,
          sampleStat "Grace Hopper".data]).map AuthorStat.name) :=
  (partition_complete [(samplePersisted.name, samplePersisted)]
    [(sampleAttempted.name, sampleAttempted)]
    [sampleStat "Ada Lovelace".data, sampleStat "Alan Turing".data,
      sampleStat "Grace Hopper".data]).1

/-- C2: an author record persisted with all four enrichment fields present
but failing the `has_info` test (affiliation or role Unknown/empty — the
`not_found` status) is loaded into the `previously_attempted` dict, and a
candidate author bearing that name — even one qualifying by score
(`highly_relevant_count > 0`) — is placed into the skipped list and never
into `authors_to_enrich`: the persisted status is terminal and not retried. -/
theorem attempted_is_terminal (entries : List PersistedAuthor)
    (r : PersistedAuthor)
    (hmem : r ∈ entries) (hreq : has_required_fields r = true)
    (hinf : has_info r = false)
    (hnodup : (entries.map PersistedAuthor.name).Nodup)
    (cs : List AuthorStat) (a : AuthorStat) (ha : a ∈ cs)
    (hname : a.name = r.name) (hq : 0 < a.highlyRelevantCount) :
    (∃ x ∈ (partitionAuthors (load_existing_authors entries).1
        (load_existing_authors entries).2 cs).2.1, x.name = r.name) ∧
    (∀ x ∈ (partitionAuthors (load_existing_authors entries).1
        (load_existing_authors entries).2 cs).2.2, x.name ≠ r.name) := by
  have hload := load_attempted entries ([], []) r hreq hinf hmem hnodup rfl
  have hE : dictLookup (load_existing_authors entries).1 r.name = none :=
    hload.1
  have hS : dictLookup (load_existing_authors entries).2 r.name = some r :=
    hload.2
  have hA : (dictLookup (load_existing_authors entries).2 r.name).isSome
      = true := by
    rw [hS]; rfl
  constructor
  · obtain ⟨x, hx, hxn⟩ := partition_mem_attempted
      (load_existing_authors entries).1 (load_existing_authors entries).2
      cs a ha (by rw [hname]; exact hE) (by rw [hname]; exact hA)
    exact ⟨x, hx, by rw [hxn, hname]⟩
  · intro x hx hxe
    have h3 := (partitionAuthors_parts (load_existing_authors entries).1
      (load_existing_authors entries).2 cs).2.2.2 x hx
    rw [hxe] at h3
    exact Option.noConfusion (hS.symm.trans h3.2)

/-- C2 witness: the terminality theorem applied to a concrete persisted file
containing one attempted (`Unknown`) author and a qualifying candidate with
the same name. -/
theorem attempted_is_terminal_witness :
    ∃ x ∈ (partitionAuthors (load_existing_authors [sampleAttempted]).1
        (load_existing_authors [sampleAttempted]).2
        [sampleStat "Alan Turing".data]).2.1,
      x.name = sampleAttempted.name :=
  (attempted_is_terminal [sampleAttempted] sampleAttempted (by decide)
    (by decide) (by decide) (by decide)
    [sampleStat "Alan Turing".data] (sampleStat "Alan Turing".data)
    (by decide) rfl (by decide)).1

theorem dropWhile_head_false (p : Char → Bool) :
    ∀ (l : List Char) (c : Char) (rest : List Char),
      l.dropWhile p = c :: rest → p c = false := by
  intro l
  induction l with
  | nil => intro c rest h; exact List.noConfusion h
  | cons a t ih =>
    intro c rest h
    rw [List.dropWhile_cons] at h
    by_cases hp : p a = true
    · rw [if_pos hp] at h
      exact ih c rest h
    · rw [if_neg hp] at h
      cases h
      rwa [Bool.not_eq_true] at hp

theorem braceLoop_shape (cs : List Char) :
    ∀ (d : Nat) (acc r : List Char), 0 < d →
      acc.count '{' = acc.count '}' + d → acc.head? = some '{' →
      braceLoop cs d acc = some r →
      r.count '{' = r.count '}' ∧ r.head? = some '{' ∧
        r.getLast? = some '}' := by
  induction cs with
  | nil => intro d acc r _ _ _ h; exact Option.noConfusion h
  | cons c rest ih =>
    intro d acc r hd hcount hhead h
    have happ : ∀ x : Char, (acc ++ [x]).head? = some '{' := by
      intro x
      cases acc with
      | nil => exact Option.noConfusion hhead
      | cons y ys => simpa using hhead
    by_cases hc : c = '{'
    · subst hc
      rw [braceLoop, if_pos rfl] at h
      refine ih (d + 1) (acc ++ ['{']) r (by omega) ?_ (happ '{') h
      have h1 : ('{' == '{') = true := by decide
      have h2 : ('{' == '}') = false := by decide
      simp only [List.count_append, List.count_cons, List.count_nil, h1, h2,
        Bool.false_eq_true, ite_true, ite_false]
      omega
    · by_cases hc2 : c = '}'
      · subst hc2
        rw [braceLoop, if_neg hc, if_pos rfl] at h
        by_cases hd1 : d = 1
        · rw [if_pos hd1] at h
          injection h with hr
          subst hr
          refine ⟨?_, happ '}', List.getLast?_concat acc⟩
          have h1 : ('}' == '{') = false := by decide
          have h2 : ('}' == '}') = true := by decide
          simp only [List.count_append, List.count_cons, List.count_nil, h1, h2,
            Bool.false_eq_true, ite_true, ite_false]
          omega
        · rw [if_neg hd1] at h
          refine ih (d - 1) (acc ++ ['}']) r (by omega) ?_ (happ '}') h
          have h1 : ('}' == '{') = false := by decide
          have h2 : ('}' == '}') = true := by decide
          simp only [List.count_append, List.count_cons, List.count_nil, h1, h2,
            Bool.false_eq_true, ite_true, ite_false]
          omega
      · rw [braceLoop, if_neg hc, if_neg hc2] at h
        refine ih d (acc ++ [c]) r hd ?_ (happ c) h
        have h1 : (c == '{') = false := by
          rw [beq_eq_false_iff_ne]; exact hc
        have h2 : (c == '}') = false := by
          rw [beq_eq_false_iff_ne]; exact hc2
        simp only [List.count_append, List.count_cons, List.count_nil, h1, h2,
          Bool.false_eq_true, ite_false]
        omega

theorem extractBraced_shape (t r : List Char) (h : extractBraced t = some r) :
    r.count '{' = r.count '}' ∧ r.head? = some '{' ∧ r.getLast? = some '}' := by
  unfold extractBraced at h
  cases hdw : t.dropWhile (fun c => decide (c ≠ '{')) with
  | nil => rw [hdw] at h; exact Option.noConfusion h
  | cons c rest =>
    rw [hdw] at h
    have hc : c = '{' := by
      have := dropWhile_head_false (fun c => decide (c ≠ '{')) t c rest hdw
      simpa using this
    subst hc
    exact braceLoop_shape rest 1 ['{'] r (by omega) (by decide) rfl h

theorem extractBraced_no_brace (t : List Char) (h : '{' ∉ t) :
    extractBraced t = none := by
  unfold extractBraced
  have hnil : t.dropWhile (fun c => decide (c ≠ '{')) = [] := by
    rw [List.dropWhile_eq_nil_iff]
    intro x hx
    simp only [decide_eq_true_eq]
    exact fun e => h (e ▸ hx)
  rw [hnil]

theorem regexBraceSearch_shape (cs : List Char) :
    ∀ r : List Char, regexBraceSearch cs = some r →
      r.count '}' = 1 ∧ r.head? = some '{' ∧ r.getLast? = some '}' := by
  induction cs with
  | nil => intro r h; exact Option.noConfusion h
  | cons c rest ih =>
    intro r h
    by_cases hc : c = '{'
    · subst hc
      rw [regexBraceSearch, if_pos rfl] at h
      by_cases hcond : rest.takeWhile (fun c => decide (c ≠ '}')) ≠ [] ∧
          (rest.takeWhile (fun c => decide (c ≠ '}'))).length < rest.length
      · rw [if_pos hcond] at h
        injection h with hr
        subst hr
        have hbody : (rest.takeWhile (fun c => decide (c ≠ '}'))).count '}' = 0 := by
          rw [List.count_eq_zero]
          intro hmem
          have := List.mem_takeWhile_imp hmem
          simp at this
        refine ⟨?_, rfl, ?_⟩
        · have h1 : ('{' == '}') = false := by decide
          have h2 : ('}' == '}') = true := by decide
          simp only [List.count_cons, List.count_append, List.count_nil, h1, h2,
            Bool.false_eq_true, ite_false, ite_true, hbody]
        · rw [show ('{' :: (rest.takeWhile (fun c => decide (c ≠ '}')) ++ ['}'])) =
            ('{' :: rest.takeWhile (fun c => decide (c ≠ '}'))) ++ ['}'] from rfl]
          exact List.getLast?_concat _
      · rw [if_neg hcond] at h
        exact ih r h
    · rw [regexBraceSearch, if_neg hc] at h
      exact ih r h

/-- C6 counterexample: on a response whose JSON object contains nested braces,
the AUTHOR worker does not locate a balanced object by brace counting — its
naive regex grabs the text from the first `{` only up to the FIRST `}`,
yielding an unbalanced extraction (two `{` but one `}`), while the paper
worker's brace-counting extraction returns the full balanced object.  The
claim that both workers brace-count is false. -/
theorem author_regex_counterexample :
    authorLocateJson nestedResponse = "\x7b\"a\": \x7b\"b\": 1\x7d".data ∧
    braceCountEq (authorLocateJson nestedResponse) = false ∧
    parse_json_response nestedResponse = some nestedResponse ∧
    braceCountEq nestedResponse = true := by
  refine ⟨?_, ?_, ?_, ?_⟩ <;> decide

/-- C6 amended: the PAPER worker strips markdown fences and extracts a
balanced JSON object by brace counting from the first `{` — any extraction it
returns has equal brace counts, starts with `{` and ends with `}`, and it
returns `none` (the malformed-response failure, never an exception) when the
fence-stripped text contains no `{` or the braces never re-balance; the
AUTHOR worker instead locates text with the naive regex `\x7b[^\x7d]+\x7d`,
whose every match contains exactly one `}`, so it cannot capture a nested
object. -/
theorem json_extraction_shape (t r : List Char) :
    (parse_json_response t = some r →
      r.count '{' = r.count '}' ∧ r.head? = some '{' ∧
        r.getLast? = some '}') ∧
    ('{' ∉ stripFences t → parse_json_response t = none) ∧
    (regexBraceSearch t = some r →
      r.count '}' = 1 ∧ r.head? = some '{' ∧ r.getLast? = some '}') := by
  refine ⟨?_, ?_, ?_⟩
  · intro h
    exact extractBraced_shape (stripFences t) r h
  · intro h
    exact extractBraced_no_brace (stripFences t) h
  · intro h
    exact regexBraceSearch_shape t r h

/-- C6 witness: the amended theorem applied to the nested-brace response. -/
theorem json_extraction_shape_witness :
    nestedResponse.count '{' = nestedResponse.count '}' ∧
    nestedResponse.head? = some '{' ∧ nestedResponse.getLast? = some '}' :=
  (json_extraction_shape nestedResponse nestedResponse).1 (by decide)

theorem cleanLoop_sound (papers : List RawPaper) : ∀ seen : List (List Char),
    (∀ c ∈ (cleanLoop seen papers).1,
      c.title ≠ [] ∧ ¬ c.score ≤ 50 ∧ lowerKey c.title ∉ seen ∧
      ∃ p ∈ papers, c.title = pyStrip p.title ∧
        c.score = roundTo2 (rawScore p * 100)) ∧
    ((cleanLoop seen papers).1.map (fun c => lowerKey c.title)).Nodup := by
  induction papers with
  | nil =>
    intro seen
    refine ⟨?_, by simp [cleanLoop]⟩
    intro c hc
    simp [cleanLoop] at hc
  | cons p rest ih =>
    intro seen
    by_cases h1 : pyStrip p.title = []
    · have heq : cleanLoop seen (p :: rest) = cleanLoop seen rest := by
        rw [cleanLoop, if_pos h1]
      rw [heq]
      obtain ⟨ihm, ihn⟩ := ih seen
      refine ⟨?_, ihn⟩
      intro c hc
      obtain ⟨hc1, hc2, hc3, q, hq, hqt, hqs⟩ := ihm c hc
      exact ⟨hc1, hc2, hc3, q, List.mem_cons_of_mem p hq, hqt, hqs⟩
    · by_cases h2 : lowerKey (pyStrip p.title) ∈ seen
      · have heq : (cleanLoop seen (p :: rest)).1 = (cleanLoop seen rest).1 := by
          rw [cleanLoop, if_neg h1, if_pos h2]
        rw [heq]
        obtain ⟨ihm, ihn⟩ := ih seen
        refine ⟨?_, ihn⟩
        intro c hc
        obtain ⟨hc1, hc2, hc3, q, hq, hqt, hqs⟩ := ihm c hc
        exact ⟨hc1, hc2, hc3, q, List.mem_cons_of_mem p hq, hqt, hqs⟩
      · by_cases h3 : roundTo2 (rawScore p * 100) ≤ 50
        · have heq : (cleanLoop seen (p :: rest)).1 = (cleanLoop seen rest).1 := by
            rw [cleanLoop, if_neg h1, if_neg h2, if_pos h3]
          rw [heq]
          obtain ⟨ihm, ihn⟩ := ih seen
          refine ⟨?_, ihn⟩
          intro c hc
          obtain ⟨hc1, hc2, hc3, q, hq, hqt, hqs⟩ := ihm c hc
          exact ⟨hc1, hc2, hc3, q, List.mem_cons_of_mem p hq, hqt, hqs⟩
        · have heq : (cleanLoop seen (p :: rest)).1 =
              ⟨pyStrip p.title, roundTo2 (rawScore p * 100)⟩ ::
                (cleanLoop (lowerKey (pyStrip p.title) :: seen) rest).1 := by
            rw [cleanLoop, if_neg h1, if_neg h2, if_neg h3]
          rw [heq]
          obtain ⟨ihm, ihn⟩ := ih (lowerKey (pyStrip p.title) :: seen)
          constructor
          · intro c hc
            rcases List.mem_cons.mp hc with hhd | htl
            · subst hhd
              exact ⟨h1, h3, h2, p, List.mem_cons_self p rest, rfl, rfl⟩
            · obtain ⟨hc1, hc2, hc3, q, hq, hqt, hqs⟩ := ihm c htl
              refine ⟨hc1, hc2, fun hmem => hc3 (List.mem_cons_of_mem _ hmem),
                q, List.mem_cons_of_mem p hq, hqt, hqs⟩
          · rw [List.map_cons, List.nodup_cons]
            refine ⟨?_, ihn⟩
            intro hmem
            obtain ⟨c, hc, hck⟩ := List.mem_map.mp hmem
            obtain ⟨hc1, hc2, hc3, _⟩ := ihm c hc
            exact hc3 (hck ▸ List.mem_cons_self _ _)

theorem clean_papers_dedupExample :
    clean_papers dedupExample = ([⟨"A".data, 90⟩, ⟨"B".data, 60⟩], 1, 0) := by
  have e1 : roundTo2 ((9:ℚ)/10 * 100) = 90 := by
    unfold roundTo2 roundHalfEven
    norm_num
  have e2 : roundTo2 ((1:ℚ)/10 * 100) = 10 := by
    unfold roundTo2 roundHalfEven
    norm_num
  have e3 : roundTo2 ((6:ℚ)/10 * 100) = 60 := by
    unfold roundTo2 roundHalfEven
    norm_num
  have hA : pyStrip "A".data = ['A'] := by decide
  have ha : pyStrip "a ".data = ['a'] := by decide
  have hB : pyStrip "B".data = ['B'] := by decide
  have kA : lowerKey ['A'] = ['a'] := by decide
  have ka : lowerKey ['a'] = ['a'] := by decide
  have kB : lowerKey ['B'] = ['b'] := by decide
  simp only [clean_papers, dedupExample, cleanLoop, rawScore, Option.getD,
    hA, ha, hB, kA, ka, kB, e1, e2, e3]
  norm_num [eq_false (show ¬ (('b':Char) = 'a') by decide)]

/-- C7 counterexample: on two same-titled records where the first is
sub-threshold (scores 0.1 then 0.9), `clean_papers` keeps the SECOND
occurrence with score 90 — a dropped record's title is never registered in
`seen_titles` — whereas the claim's pipeline (deduplicate keeping the first
occurrence, then drop ≤ 50) would keep the first occurrence and then drop
it, returning nothing. -/
theorem clean_papers_counterexample :
    (clean_papers lowFirstDupInput).1 = [⟨"X".data, 90⟩] ∧
    cleanSpecOrder lowFirstDupInput = [] ∧
    cleanSpecOrder lowFirstDupInput ≠ (clean_papers lowFirstDupInput).1 := by
  have e1 : roundTo2 ((1:ℚ)/10 * 100) = 10 := by
    unfold roundTo2 roundHalfEven
    norm_num
  have e2 : roundTo2 ((9:ℚ)/10 * 100) = 90 := by
    unfold roundTo2 roundHalfEven
    norm_num
  have hX : pyStrip "X".data = ['X'] := by decide
  have kX : lowerKey ['X'] = ['x'] := by decide
  have hclean : (clean_papers lowFirstDupInput).1 = [⟨"X".data, 90⟩] := by
    simp only [clean_papers, lowFirstDupInput, cleanLoop, rawScore,
      Option.getD, hX, kX, e1, e2]
    norm_num
  have hspec : cleanSpecOrder lowFirstDupInput = [] := by
    simp only [cleanSpecOrder, lowFirstDupInput, List.filter_cons,
      List.filter_nil, dedupByKey, rawScore, Option.getD, hX, kX, e1, e2]
    norm_num [roundTo2, roundHalfEven]
  refine ⟨hclean, hspec, ?_⟩
  rw [hclean, hspec]
  simp

/-- C7 amended: cleaning drops empty/whitespace-only titles and sub-threshold
records, and deduplicates against previously KEPT titles — every output
record has a non-empty stripped title, a scaled-and-rounded score above 50,
provenance in the input, and pairwise distinct case-insensitive titles; a
sub-threshold first occurrence does not suppress a later duplicate.  On the
spec's example (titles A / "a " / B, fractional scores 0.9 / 0.1 / 0.6) the
result is exactly A with 90.0 and B with 60.0, with one duplicate and zero
low-score drops counted. -/
theorem clean_papers_characterization (papers : List RawPaper) :
    (∀ c ∈ (clean_papers papers).1,
      c.title ≠ [] ∧ ¬ c.score ≤ 50 ∧
      ∃ p ∈ papers, c.title = pyStrip p.title ∧
        c.score = roundTo2 (rawScore p * 100)) ∧
    ((clean_papers papers).1.map (fun c => lowerKey c.title)).Nodup ∧
    clean_papers dedupExample = ([⟨"A".data, 90⟩, ⟨"B".data, 60⟩], 1, 0) := by
  obtain ⟨hm, hn⟩ := cleanLoop_sound papers []
  refine ⟨?_, hn, clean_papers_dedupExample⟩
  intro c hc
  obtain ⟨hc1, hc2, _, q, hq, hqt, hqs⟩ := hm c hc
  exact ⟨hc1, hc2, q, hq, hqt, hqs⟩

/-- C7 witness: the characterization applied to the spec's example input. -/
theorem clean_papers_characterization_witness :
    ((clean_papers dedupExample).1.map (fun c => lowerKey c.title)).Nodup :=
  (clean_papers_characterization dedupExample).2.1

theorem cleanToken_some (a x : List Char) (h : cleanToken a = some x) :
    a ∉ skipTokens ∧ x = rstripDots a ∧ x ≠ [] := by
  unfold cleanToken at h
  by_cases h1 : a ∈ skipTokens
  · rw [if_pos h1] at h
    exact Option.noConfusion h
  · rw [if_neg h1] at h
    by_cases h2 : rstripDots a = []
    · rw [if_pos h2] at h
      exact Option.noConfusion h
    · rw [if_neg h2] at h
      injection h with hx
      exact ⟨h1, hx.symm, hx ▸ h2⟩

theorem filterMap_sublist_map {α β : Type} (g : α → Option β) (h : α → β)
    (hg : ∀ a b, g a = some b → b = h a) :
    ∀ L : List α, List.Sublist (L.filterMap g) (L.map h) := by
  intro L
  induction L with
  | nil => simp
  | cons a rest ih =>
    rw [List.filterMap_cons, List.map_cons]
    cases hga : g a with
    | none => exact ih.cons (h a)
    | some b =>
      rw [hg a b hga]
      exact ih.cons₂ (h a)

theorem rstripDots_no_trailing_dot (l : List Char) :
    (rstripDots l).getLast? ≠ some '.' := by
  unfold rstripDots
  intro h
  rw [List.getLast?_reverse] at h
  cases hdw : l.reverse.dropWhile (fun c => decide (c = '.')) with
  | nil => rw [hdw] at h; exact Option.noConfusion h
  | cons c rest =>
    rw [hdw] at h
    have hc := dropWhile_head_false (fun c => decide (c = '.')) l.reverse c rest hdw
    injection h with hcc
    rw [hcc] at hc
    simp at hc

/-- C9 counterexample: `parse_authors` strips whitespace BEFORE removing
trailing periods, so on `"Smith ."` the removed period exposes a trailing
space that stays in the returned element — the claim that every element has
its surrounding whitespace removed is false. -/
theorem parse_authors_counterexample :
    parse_authors (some "Smith .".data) = [['S', 'm', 'i', 't', 'h', ' ']] ∧
    ['S', 'm', 'i', 't', 'h', ' '].getLast? = some ' ' ∧
    isWS ' ' = true := by
  refine ⟨?_, ?_, ?_⟩ <;> decide

/-- C9 amended: `None` and the empty string yield `[]`; every returned
element is non-empty and carries no trailing period; each element is the
whitespace-stripped-then-period-stripped form of a comma-separated token
whose stripped form is not one of `"..."`, `"et al"`, `"et al."`; and the
output preserves input token order (it is a sublist of the cleaned token
list).  Because period removal happens after whitespace stripping, an
element may end in whitespace that preceded a removed trailing period. -/
theorem parse_authors_characterization (l : List Char) :
    parse_authors none = [] ∧
    parse_authors (some []) = [] ∧
    (∀ x ∈ parse_authors (some l), x ≠ [] ∧ x.getLast? ≠ some '.') ∧
    (∀ x ∈ parse_authors (some l), ∃ t ∈ splitComma l,
      pyStrip t ∉ skipTokens ∧ x = rstripDots (pyStrip t)) ∧
    List.Sublist (parse_authors (some l))
      ((splitComma l).map (fun t => rstripDots (pyStrip t))) := by
  refine ⟨rfl, rfl, ?_, ?_, ?_⟩
  · intro x hx
    by_cases hl : l = []
    · subst hl; simp [parse_authors] at hx
    · rw [parse_authors, if_neg hl] at hx
      obtain ⟨a, _, hca⟩ := List.mem_filterMap.mp hx
      obtain ⟨_, hxa, hne⟩ := cleanToken_some a x hca
      exact ⟨hne, hxa ▸ rstripDots_no_trailing_dot a⟩
  · intro x hx
    by_cases hl : l = []
    · subst hl; simp [parse_authors] at hx
    · rw [parse_authors, if_neg hl] at hx
      obtain ⟨a, ha, hca⟩ := List.mem_filterMap.mp hx
      obtain ⟨t, ht, hta⟩ := List.mem_map.mp ha
      obtain ⟨hskip, hxa, _⟩ := cleanToken_some a x hca
      exact ⟨t, ht, by rw [hta]; exact hskip, by rw [hxa, hta]⟩
  · by_cases hl : l = []
    · subst hl
      simp [parse_authors]
    · rw [parse_authors, if_neg hl]
      unfold parseAuthorsList
      have hsub := filterMap_sublist_map cleanToken rstripDots
        (fun a b hab => (cleanToken_some a b hab).2.1)
        ((splitComma l).map pyStrip)
      rwa [List.map_map] at hsub

/-- C9 witness: the characterization applied to a concrete author string. -/
theorem parse_authors_characterization_witness :
    ['J', 'o', 'h', 'n'] ≠ ([] : List Char) ∧
    (['J', 'o', 'h', 'n'] : List Char).getLast? ≠ some '.' :=
  (parse_authors_characterization "John., et al.".data).2.2.1
    ['J', 'o', 'h', 'n'] (by decide)

end PaperAtlas
